import Mathlib

/-
Verification of the adaptive pairwise rating engine of the ranker
repository.  The definitions below are shallow embeddings of the Python
source: `rate` in app/routers/ranking.py, and `get_media_files`,
`get_user_media_stats`, `get_global_media_stats_with_user` and
`get_name_group_elo_stats` in app/utils.py.  Rating arithmetic inside the
Elo update uses real numbers (the source computes `10 ** x` on floats);
stored ratings handled by the selection and aggregation queries are
modelled as rationals (every stored float value is rational).
-/

namespace Ranker

/-- The four in-memory dictionaries used by the `rate` handler
(ranking.py lines 62-75): global ratings and counts, and the submitting
user's per-user ratings and counts, keyed by item name. -/
structure BatchState where
  ratings : String → ℝ
  counts : String → ℕ
  userRatings : String → ℝ
  userCounts : String → ℕ

/-- The logistic expected score `1 / (1 + 10 ** ((Rb - Ra) / 400))` of a
player rated `Ra` against a player rated `Rb` (ranking.py lines 86-87). -/
noncomputable def eloExpected (Ra Rb : ℝ) : ℝ :=
  1 / (1 + (10 : ℝ) ^ ((Rb - Ra) / 400))

/-- `counts[x] += 1` on a dictionary. -/
def bump (f : String → ℕ) (x : String) : String → ℕ :=
  Function.update f x (f x + 1)

/-- Body of the nested pairwise loop of `rate` (ranking.py lines 80-101)
for one `(winner, loser)` pair: K = 32, expectations computed from the
ratings as they stand before this pair, then the dictionary writes for the
two ratings (winner first, loser second) and the four count increments. -/
noncomputable def pairUpdate (winner loser : String) (st : BatchState) : BatchState :=
  let K : ℝ := 32
  let Ra := st.ratings winner
  let Rb := st.ratings loser
  let uRa := st.userRatings winner
  let uRb := st.userRatings loser
  let Ea := eloExpected Ra Rb
  let Eb := eloExpected Rb Ra
  let Ra' := Ra + K * (1 - Ea)
  let Rb' := Rb + K * (0 - Eb)
  let EuA := eloExpected uRa uRb
  let EuB := eloExpected uRb uRa
  let uRa' := uRa + K * (1 - EuA)
  let uRb' := uRb + K * (0 - EuB)
  { ratings := Function.update (Function.update st.ratings winner Ra') loser Rb'
    counts := bump (bump st.counts winner) loser
    userRatings := Function.update (Function.update st.userRatings winner uRa') loser uRb'
    userCounts := bump (bump st.userCounts winner) loser }

/-- The nested loops of `rate` (ranking.py lines 78-101):
`for i in range(len(ids)): for j in range(i + 1, len(ids)):` applying one
pairwise update with winner `ids[i]` and loser `ids[j]`. -/
noncomputable def rateLoop (ids : List String) (st : BatchState) : BatchState :=
  (List.range ids.length).foldl
    (fun st1 i =>
      (List.range' (i + 1) (ids.length - (i + 1))).foldl
        (fun st2 j => pairUpdate (ids.getD i "") (ids.getD j "") st2) st1)
    st

/-- The index pairs `(i, j)` with `i < j < n`, in the iteration order of the
nested loops of `rate`: `i` ascending, and for each `i`, `j` from `i + 1`
to `n - 1`. -/
def pairList (n : ℕ) : List (ℕ × ℕ) :=
  (List.range n).flatMap fun i =>
    (List.range' (i + 1) (n - (i + 1))).map fun j => (i, j)

/-- All (earlier, later) pairs of elements of a list, in the same order as
`pairList` after replacing indices by the list entries. -/
def allPairs : List String → List (String × String)
  | [] => []
  | a :: t => (t.map fun b => (a, b)) ++ allPairs t

/-- One row of the append-only `rankings` table (ranking.py lines 51-61):
the submitting user, the first four item names of the submitted order
(missing slots are `none`), and the timestamp. -/
structure RankingEvent where
  username : String
  first : Option String
  second : Option String
  third : Option String
  fourth : Option String
  ratedAt : ℕ

/-- The persistent store touched by `rate`: global rating and count per
item name, per-user rating and count, and the `rankings` event log.
Items never touched stand at their creation defaults (elo 1000, count 0),
which `INSERT OR IGNORE` makes observable on first access. -/
structure Store where
  elo : String → ℝ
  cnt : String → ℕ
  uelo : String → String → ℝ
  ucnt : String → String → ℕ
  rankings : List RankingEvent

/-- The `rate` handler (ranking.py lines 40-108) applied to an already
split and filtered list of item names: append the ranking event, run the
nested pairwise Elo loop on the batch dictionaries, and write the final
dictionary values back for exactly the submitted items. -/
noncomputable def rateFiles (username : String) (files : List String) (ts : ℕ)
    (s : Store) : Store :=
  let bs0 : BatchState := ⟨s.elo, s.cnt, s.uelo username, s.ucnt username⟩
  let bs := rateLoop files bs0
  { elo := fun f => if f ∈ files then bs.ratings f else s.elo f
    cnt := fun f => if f ∈ files then bs.counts f else s.cnt f
    uelo := fun u f => if u = username ∧ f ∈ files then bs.userRatings f else s.uelo u f
    ucnt := fun u f => if u = username ∧ f ∈ files then bs.userCounts f else s.ucnt u f
    rankings := s.rankings ++
      [⟨username, files[0]?, files[1]?, files[2]?, files[3]?, ts⟩] }

/-- The `rate` handler on the raw form value: split on commas and drop
empty pieces (ranking.py line 40), then process the resulting list. -/
noncomputable def rate (username : String) (order : String) (ts : ℕ) (s : Store) : Store :=
  rateFiles username ((order.splitOn ",").filter (fun f => f ≠ "")) ts s

/-- A row of the `media` table as read by `get_media_files`
(utils.py lines 137-144): filename, stored elo and rating count. -/
structure MediaRow where
  filename : String
  elo : ℚ
  cnt : ℕ

/-- `INSERT OR IGNORE INTO media (filename) VALUES (?)` for each listed
file (utils.py lines 137-139): a new row is appended with the column
defaults elo 1000 and rating_count 0; an existing filename is left
untouched. -/
def insertFiles (table : List MediaRow) (files : List String) : List MediaRow :=
  files.foldl
    (fun t f => if t.any (fun r => r.filename = f) then t else t ++ [⟨f, 1000, 0⟩])
    table

/-- Looking an elo value up in the `stats` dictionary of `get_media_files`
(utils.py line 144); every queried filename is present after the inserts,
so the default is never observable. -/
def lookupElo (table : List MediaRow) (f : String) : ℚ :=
  match table.find? (fun r => r.filename = f) with
  | some r => r.elo
  | none => 1000

/-- Python `min(xs, key=k)`: the first element of the list attaining the
minimal key, scanning left to right. -/
def minByKey {α : Type} (k : α → ℚ) : α → List α → α
  | best, [] => best
  | best, x :: xs => if k x < k best then minByKey k x xs else minByKey k best xs

/-- The fourth-slot pick of `get_media_files` (utils.py lines 154-166):
among the already-rated table rows outside the base selection, the first
one whose elo is closest to the base-selection average; if there is none,
a random member of the remaining shuffled files, or nothing when even
those are exhausted. -/
def fourthPick (table' : List MediaRow) (shuffled base_selection : List String)
    (choice : List String → String) : Option String :=
  let avg := (base_selection.map (lookupElo table')).sum / (base_selection.length : ℚ)
  match table'.filter fun r => decide (0 < r.cnt ∧ r.filename ∉ base_selection) with
  | [] =>
    let remaining := shuffled.filter fun f => decide (f ∉ base_selection)
    if remaining.isEmpty then none else some (choice remaining)
  | c :: cs => some (minByKey (fun r => |r.elo - avg|) c cs).filename

/-- `chosen = base_selection + ([fourth] if fourth else [])` (utils.py
line 167); note Python truthiness also drops an empty-string fourth. -/
def chosenOf (fourth : Option String) (base_selection : List String) : List String :=
  base_selection ++
    (match fourth with
     | some f => if f = "" then [] else [f]
     | none => [])

/-- `get_media_files` (utils.py lines 130-169).  The three calls to
`random.shuffle` and the call to `random.choice` are modelled as oracle
functions supplied by the caller; theorems about this definition
hypothesise that the shuffles permute their input and that `choice` picks
a member of a nonempty list. -/
def get_media_files (table : List MediaRow) (files : List String) (count : ℕ)
    (shuffleA shuffleB shuffleC : List String → List String)
    (choice : List String → String) : List String :=
  if files.isEmpty then []
  else
    let table' := insertFiles table files
    let shuffled := shuffleA files
    let base_count := min 3 shuffled.length
    let base_selection := shuffled.take base_count
    if shuffled.length ≤ 3 ∨ count ≤ base_count then
      (shuffleB base_selection).take (min count base_selection.length)
    else
      let chosen := chosenOf (fourthPick table' shuffled base_selection choice) base_selection
      (shuffleC chosen).take (min count chosen.length)

/-- Python slice `l[-limit:]`: with a positive `limit` the last `limit`
entries, but with `limit = 0` the whole list. -/
def pyLastSlice {α : Type} (l : List α) (limit : ℕ) : List α :=
  if limit = 0 then l else l.drop (l.length - limit)

/-- Python `list.sort(key=k, reverse=True)` on rational keys. -/
def sortByDescQ {α : Type} (key : α → ℚ) (l : List α) : List α :=
  l.insertionSort fun a b => key b ≤ key a

/-- `get_user_media_stats` (utils.py lines 284-304) applied to the rows of
the user join: each row is (filename, user elo, global elo, user count,
global count); sort by user elo descending, highest = first `limit`,
lowest = slice `[-limit:]` reversed. -/
def get_user_media_stats (rows : List (String × ℚ × ℚ × ℕ × ℕ)) (limit : ℕ) :
    List (String × ℚ × ℚ × ℕ × ℕ) × List (String × ℚ × ℚ × ℕ × ℕ) :=
  if rows.isEmpty then ([], [])
  else
    let sorted := sortByDescQ (fun r => r.2.1) rows
    (sorted.take limit, (pyLastSlice sorted limit).reverse)

/-- The `user_rows` dictionary lookup of `get_global_media_stats_with_user`
(utils.py lines 318-326): the user's (elo, count) for a filename, absent if
the user never rated it; on duplicate keys the last row wins, as in a
Python dict comprehension. -/
def userLookup (user_rows : List (String × ℚ × ℕ)) (m : String) : Option (ℚ × ℕ) :=
  ((user_rows.filter fun r => decide (r.1 = m)).getLast?).map fun r => (r.2.1, r.2.2)

/-- The annotation `(m, g_elo, user_rows.get(m, (None, 0))[0], g_cnt,
user_rows.get(m, (None, 0))[1])` of utils.py lines 332-351. -/
def annotateRow (user_rows : List (String × ℚ × ℕ)) (g : String × ℚ × ℕ) :
    String × ℚ × Option ℚ × ℕ × ℕ :=
  (g.1, g.2.1, (userLookup user_rows g.1).map (fun u => u.1), g.2.2,
    ((userLookup user_rows g.1).map fun u => u.2).getD 0)

/-- `get_global_media_stats_with_user` (utils.py lines 307-352): global
rows (filename, elo, count) sorted by elo descending, then the first
`limit` and the reversed `[-limit:]` slice, each annotated with the user's
own elo (absent if never rated) and count (0 if never rated). -/
def get_global_media_stats_with_user (global_rows : List (String × ℚ × ℕ))
    (user_rows : List (String × ℚ × ℕ)) (limit : ℕ) :
    List (String × ℚ × Option ℚ × ℕ × ℕ) × List (String × ℚ × Option ℚ × ℕ × ℕ) :=
  if global_rows.isEmpty then ([], [])
  else
    let sorted := sortByDescQ (fun r => r.2.1) global_rows
    ((sorted.take limit).map (annotateRow user_rows),
      ((pyLastSlice sorted limit).reverse).map (annotateRow user_rows))

/-- `os.path.splitext(p)[0]` for a path without separators: cut at the
last dot, except when every character before that dot is itself a dot. -/
def splitextRoot (s : String) : String :=
  let cs := s.toList
  let dots := (List.range cs.length).filter fun i => decide (cs.getD i ' ' = '.')
  match dots.getLast? with
  | none => s
  | some d =>
    if (List.range d).any (fun i => decide (¬ cs.getD i ' ' = '.')) then
      String.mk (cs.take d)
    else s

/-- The name normalisation of `get_name_group_elo_stats` (utils.py lines
375-377): strip the extension, lowercase, drop underscores, drop digits. -/
def normalize (s : String) : String :=
  String.mk ((((splitextRoot s).toList.map Char.toLower).filter
      fun c => decide (c ≠ '_')).filter fun c => !c.isDigit)

/-- Key order of a Python dict built by `setdefault` insertion: the
distinct values of the list in order of first occurrence. -/
def firstDedup (l : List String) : List String :=
  l.foldl (fun acc x => if x ∈ acc then acc else acc ++ [x]) []

/-- One tuple produced by `get_name_group_elo_stats` (utils.py line 390):
`(name, count, total_ratings, mn, mx, avg, std)`. -/
structure GroupStat where
  name : String
  count : ℕ
  total : ℕ
  mn : ℚ
  mx : ℚ
  avg : ℚ
  std : ℝ

/-- Python `min` of a nonempty list (0 on the empty list, never used). -/
def listMin : List ℚ → ℚ
  | [] => 0
  | a :: t => t.foldl min a

/-- Python `max` of a nonempty list (0 on the empty list, never used). -/
def listMax : List ℚ → ℚ
  | [] => 0
  | a :: t => t.foldl max a

/-- The `(rating, cnt)` value list collected for one normalised key by the
grouping loop of `get_name_group_elo_stats` (utils.py lines 373-378). -/
def groupVals (rows : List (String × ℚ × ℕ)) (k : String) : List (ℚ × ℕ) :=
  (rows.filter fun r => decide (normalize r.1 = k)).map fun r => (r.2.1, r.2.2)

/-- The statistics tuple computed for one group (utils.py lines 381-390):
count, total ratings, min, max, mean, and the square root of the
population variance. -/
noncomputable def groupEntry (k : String) (values : List (ℚ × ℕ)) : GroupStat :=
  let count := values.length
  let total := (values.map fun v => v.2).sum
  let ratings := values.map fun v => v.1
  let avg := ratings.sum / (count : ℚ)
  let mn := listMin ratings
  let mx := listMax ratings
  let var := ((ratings.map fun r => (r - avg) ^ 2).sum) / (count : ℚ)
  ⟨k, count, total, mn, mx, avg, Real.sqrt (var : ℝ)⟩

/-- `get_name_group_elo_stats` (utils.py lines 367-393): group the media
rows by normalised name, compute the per-group statistics, and sort by
mean rating descending (`key=lambda s: -s[5]`). -/
noncomputable def get_name_group_elo_stats (rows : List (String × ℚ × ℕ)) :
    List GroupStat :=
  let keys := firstDedup (rows.map fun r => normalize r.1)
  let stats := keys.map fun k => groupEntry k (groupVals rows k)
  sortByDescQ (fun s => s.avg) stats

/-! Helper lemmas on folds over pair lists. -/

lemma foldl_flatMap_eq {α β γ : Type} (g : β → α → β) (f : γ → List α)
    (l : List γ) (b : β) :
    (l.flatMap f).foldl g b = l.foldl (fun acc c => (f c).foldl g acc) b := by
  induction l generalizing b with
  | nil => rfl
  | cons c l ih => simp [List.foldl_append, ih]

lemma rateLoop_eq_pairList_foldl (ids : List String) (st : BatchState) :
    rateLoop ids st =
      (pairList ids.length).foldl
        (fun acc p => pairUpdate (ids.getD p.1 "") (ids.getD p.2 "") acc) st := by
  unfold rateLoop pairList
  rw [foldl_flatMap_eq]
  simp [List.foldl_map]

lemma flatMap_fun_congr {α β : Type} (l : List α) {f g : α → List β}
    (h : ∀ a, f a = g a) : l.flatMap f = l.flatMap g := by
  induction l with
  | nil => rfl
  | cons a t ih => simp only [List.flatMap_cons, h a, ih]

lemma pairList_succ (n : ℕ) :
    pairList (n + 1) =
      ((List.range' 1 n).map fun j => (0, j)) ++
        (pairList n).map fun p => (p.1 + 1, p.2 + 1) := by
  unfold pairList
  rw [List.range_succ_eq_map, List.flatMap_cons, List.flatMap_map, List.map_flatMap]
  congr 1
  apply flatMap_fun_congr
  intro i
  rw [List.map_map]
  show (List.range' (i + 1 + 1) (n + 1 - (i + 1 + 1))).map (fun j => (i + 1, j)) =
    (List.range' (i + 1) (n - (i + 1))).map
      ((fun p => (p.1 + 1, p.2 + 1)) ∘ fun j => (i, j))
  have e1 : n + 1 - (i + 1 + 1) = n - (i + 1) := by omega
  have e2 : (List.range' (i + 1) (n - (i + 1))).map (fun x => 1 + x) =
      List.range' (i + 1 + 1) (n - (i + 1)) := by
    rw [List.map_add_range']
    congr 1
    omega
  rw [e1, ← e2, List.map_map]
  congr 1
  funext j
  simp [Nat.add_comm]

lemma map_getD_range {α : Type} (l : List α) (d : α) :
    (List.range l.length).map (fun i => l.getD i d) = l := by
  induction l with
  | nil => rfl
  | cons a t ih =>
    rw [List.length_cons, List.range_succ_eq_map]
    simp only [List.map_cons, List.map_map]
    rw [List.getD_cons_zero]
    have hc : ((fun i => (a :: t).getD i d) ∘ Nat.succ) = fun i => t.getD i d := by
      funext i
      simp
    rw [hc, ih]

lemma pairList_map_getD (ids : List String) :
    (pairList ids.length).map
        (fun p => (ids.getD p.1 "", ids.getD p.2 "")) = allPairs ids := by
  induction ids with
  | nil => rfl
  | cons a t ih =>
    rw [List.length_cons, pairList_succ, List.map_append]
    congr 1
    · rw [List.range'_eq_map_range, List.map_map, List.map_map]
      conv_rhs => rw [← map_getD_range t ""]
      rw [List.map_map]
      congr 1
      funext j
      simp [Nat.add_comm]
    · rw [List.map_map, ← ih]
      congr 1

lemma rateLoop_eq_allPairs_foldl (ids : List String) (st : BatchState) :
    rateLoop ids st =
      (allPairs ids).foldl (fun acc p => pairUpdate p.1 p.2 acc) st := by
  rw [rateLoop_eq_pairList_foldl, ← pairList_map_getD ids, List.foldl_map]

/-! Helper lemmas counting increments of the pairwise loop. -/

lemma bump_bump_apply (c : String → ℕ) (w l x : String) :
    (bump (bump c w) l) x =
      c x + ((if w = x then 1 else 0) + (if l = x then 1 else 0)) := by
  simp only [bump, Function.update_apply]
  rcases eq_or_ne x l with rfl | h1 <;> rcases eq_or_ne x w with rfl | h2 <;>
    simp_all [eq_comm]

lemma pairUpdate_counts (w l x : String) (st : BatchState) :
    (pairUpdate w l st).counts x =
      st.counts x + ((if w = x then 1 else 0) + (if l = x then 1 else 0)) :=
  bump_bump_apply st.counts w l x

lemma pairUpdate_userCounts (w l x : String) (st : BatchState) :
    (pairUpdate w l st).userCounts x =
      st.userCounts x + ((if w = x then 1 else 0) + (if l = x then 1 else 0)) :=
  bump_bump_apply st.userCounts w l x

lemma foldl_pairUpdate_counts (L : List (String × String)) (st : BatchState) (x : String) :
    ((L.foldl (fun acc p => pairUpdate p.1 p.2 acc) st).counts x) =
      st.counts x +
        (L.map (fun p => (if p.1 = x then 1 else 0) + (if p.2 = x then 1 else 0))).sum := by
  induction L generalizing st with
  | nil => simp
  | cons p L ih => simp [ih, pairUpdate_counts] ; omega

lemma foldl_pairUpdate_userCounts (L : List (String × String)) (st : BatchState) (x : String) :
    ((L.foldl (fun acc p => pairUpdate p.1 p.2 acc) st).userCounts x) =
      st.userCounts x +
        (L.map (fun p => (if p.1 = x then 1 else 0) + (if p.2 = x then 1 else 0))).sum := by
  induction L generalizing st with
  | nil => simp
  | cons p L ih => simp [ih, pairUpdate_userCounts] ; omega

lemma mem_allPairs {p : String × String} {ids : List String} (h : p ∈ allPairs ids) :
    p.1 ∈ ids ∧ p.2 ∈ ids := by
  induction ids with
  | nil => simp [allPairs] at h
  | cons a t ih =>
    simp only [allPairs, List.mem_append, List.mem_map] at h
    rcases h with ⟨b, hb, hp⟩ | h
    · subst hp ; exact ⟨List.mem_cons_self a t, List.mem_cons_of_mem a hb⟩
    · rcases ih h with ⟨h1, h2⟩
      exact ⟨List.mem_cons_of_mem a h1, List.mem_cons_of_mem a h2⟩

lemma sum_map_ite_eq_count (t : List String) (x : String) :
    (t.map (fun b => if b = x then (1 : ℕ) else 0)).sum = t.count x := by
  induction t with
  | nil => rfl
  | cons a t ih =>
    rw [List.map_cons, List.sum_cons, ih, List.count_cons]
    by_cases h : a = x <;> simp [h, beq_iff_eq, Nat.add_comm]

lemma occ_sum_allPairs (ids : List String) (x : String)
    (hnd : ids.Nodup) (hx : x ∈ ids) :
    ((allPairs ids).map
        (fun p => (if p.1 = x then 1 else 0) + (if p.2 = x then 1 else 0))).sum =
      ids.length - 1 := by
  induction ids with
  | nil => simp at hx
  | cons a t ih =>
    rw [List.nodup_cons] at hnd
    obtain ⟨ha, hndt⟩ := hnd
    rw [allPairs, List.map_append, List.sum_append, List.map_map]
    rcases List.mem_cons.mp hx with hxa | hxt
    · subst hxa
      have h1 : (t.map ((fun p => (if p.1 = x then 1 else 0) + (if p.2 = x then 1 else 0)) ∘
          fun b => (x, b))).sum = t.length := by
        rw [List.map_congr_left (g := fun _ => (1 : ℕ))]
        · simp
        · intro b hb
          have : ¬ b = x := fun hbx => ha (hbx ▸ hb)
          simp [this]
      have h2 : ((allPairs t).map
          (fun p => (if p.1 = x then 1 else 0) + (if p.2 = x then 1 else 0))).sum = 0 := by
        rw [List.map_congr_left (g := fun _ => (0 : ℕ))]
        · simp
        · intro p hp
          obtain ⟨hp1, hp2⟩ := mem_allPairs hp
          have n1 : ¬ p.1 = x := fun h => ha (h ▸ hp1)
          have n2 : ¬ p.2 = x := fun h => ha (h ▸ hp2)
          simp [n1, n2]
      rw [h1, h2]
      simp
    · have hax : ¬ a = x := fun h => ha (h ▸ hxt)
      have h1 : (t.map ((fun p => (if p.1 = x then 1 else 0) + (if p.2 = x then 1 else 0)) ∘
          fun b => (a, b))).sum = 1 := by
        rw [List.map_congr_left (g := fun b => if b = x then (1 : ℕ) else 0)]
        · rw [sum_map_ite_eq_count, List.count_eq_one_of_mem hndt hxt]
        · intro b _
          simp [hax]
      rw [h1, ih hndt hxt]
      have : 1 ≤ t.length := List.length_pos.mpr (List.ne_nil_of_mem hxt)
      simp only [List.length_cons]
      omega

/-! Helper lemmas on the logistic expectation and the rating writes. -/

lemma eloExpected_pos (a b : ℝ) : 0 < eloExpected a b := by
  have h : (0 : ℝ) < (10 : ℝ) ^ ((b - a) / 400) :=
    Real.rpow_pos_of_pos (by norm_num) _
  unfold eloExpected
  positivity

lemma eloExpected_lt_one (a b : ℝ) : eloExpected a b < 1 := by
  have h : (0 : ℝ) < (10 : ℝ) ^ ((b - a) / 400) :=
    Real.rpow_pos_of_pos (by norm_num) _
  unfold eloExpected
  rw [div_lt_one (by linarith)]
  linarith

lemma eloExpected_add (a b : ℝ) : eloExpected a b + eloExpected b a = 1 := by
  unfold eloExpected
  have hx : ((b - a) / 400 : ℝ) = -((a - b) / 400) := by ring
  rw [hx, Real.rpow_neg (by norm_num : (0 : ℝ) ≤ 10)]
  have ht : (0 : ℝ) < (10 : ℝ) ^ ((a - b) / 400) :=
    Real.rpow_pos_of_pos (by norm_num) _
  field_simp
  ring

lemma pairUpdate_ratings_winner (w l : String) (st : BatchState) (h : w ≠ l) :
    (pairUpdate w l st).ratings w =
      st.ratings w + 32 * (1 - eloExpected (st.ratings w) (st.ratings l)) := by
  have hr : (pairUpdate w l st).ratings =
      Function.update (Function.update st.ratings w
          (st.ratings w + 32 * (1 - eloExpected (st.ratings w) (st.ratings l)))) l
        (st.ratings l + 32 * (0 - eloExpected (st.ratings l) (st.ratings w))) := rfl
  rw [hr]
  simp [Function.update_apply, h]

lemma pairUpdate_ratings_loser (w l : String) (st : BatchState) :
    (pairUpdate w l st).ratings l =
      st.ratings l + 32 * (0 - eloExpected (st.ratings l) (st.ratings w)) := by
  have hr : (pairUpdate w l st).ratings =
      Function.update (Function.update st.ratings w
          (st.ratings w + 32 * (1 - eloExpected (st.ratings w) (st.ratings l)))) l
        (st.ratings l + 32 * (0 - eloExpected (st.ratings l) (st.ratings w))) := rfl
  rw [hr]
  simp [Function.update_apply]

lemma pairUpdate_userRatings_winner (w l : String) (st : BatchState) (h : w ≠ l) :
    (pairUpdate w l st).userRatings w =
      st.userRatings w + 32 * (1 - eloExpected (st.userRatings w) (st.userRatings l)) := by
  have hr : (pairUpdate w l st).userRatings =
      Function.update (Function.update st.userRatings w
          (st.userRatings w + 32 * (1 - eloExpected (st.userRatings w) (st.userRatings l)))) l
        (st.userRatings l + 32 * (0 - eloExpected (st.userRatings l) (st.userRatings w))) := rfl
  rw [hr]
  simp [Function.update_apply, h]

lemma pairUpdate_userRatings_loser (w l : String) (st : BatchState) :
    (pairUpdate w l st).userRatings l =
      st.userRatings l + 32 * (0 - eloExpected (st.userRatings l) (st.userRatings w)) := by
  have hr : (pairUpdate w l st).userRatings =
      Function.update (Function.update st.userRatings w
          (st.userRatings w + 32 * (1 - eloExpected (st.userRatings w) (st.userRatings l)))) l
        (st.userRatings l + 32 * (0 - eloExpected (st.userRatings l) (st.userRatings w))) := rfl
  rw [hr]
  simp [Function.update_apply]

lemma rateLoop_counts (ids : List String) (st : BatchState) (x : String)
    (hnd : ids.Nodup) (hx : x ∈ ids) :
    (rateLoop ids st).counts x = st.counts x + (ids.length - 1) ∧
    (rateLoop ids st).userCounts x = st.userCounts x + (ids.length - 1) := by
  rw [rateLoop_eq_allPairs_foldl]
  constructor
  · rw [foldl_pairUpdate_counts, occ_sum_allPairs ids x hnd hx]
  · rw [foldl_pairUpdate_userCounts, occ_sum_allPairs ids x hnd hx]

/-! Helper lemmas on the rate handler state transition. -/

lemma rateFiles_elo (username : String) (files : List String) (ts : ℕ) (s : Store)
    (f : String) :
    (rateFiles username files ts s).elo f =
      if f ∈ files then
        (rateLoop files ⟨s.elo, s.cnt, s.uelo username, s.ucnt username⟩).ratings f
      else s.elo f := rfl

lemma rateFiles_cnt (username : String) (files : List String) (ts : ℕ) (s : Store)
    (f : String) :
    (rateFiles username files ts s).cnt f =
      if f ∈ files then
        (rateLoop files ⟨s.elo, s.cnt, s.uelo username, s.ucnt username⟩).counts f
      else s.cnt f := rfl

lemma rateFiles_uelo (username : String) (files : List String) (ts : ℕ) (s : Store)
    (u f : String) :
    (rateFiles username files ts s).uelo u f =
      if u = username ∧ f ∈ files then
        (rateLoop files ⟨s.elo, s.cnt, s.uelo username, s.ucnt username⟩).userRatings f
      else s.uelo u f := rfl

lemma rateFiles_ucnt (username : String) (files : List String) (ts : ℕ) (s : Store)
    (u f : String) :
    (rateFiles username files ts s).ucnt u f =
      if u = username ∧ f ∈ files then
        (rateLoop files ⟨s.elo, s.cnt, s.uelo username, s.ucnt username⟩).userCounts f
      else s.ucnt u f := rfl

lemma rateFiles_rankings (username : String) (files : List String) (ts : ℕ) (s : Store) :
    (rateFiles username files ts s).rankings =
      s.rankings ++ [⟨username, files[0]?, files[1]?, files[2]?, files[3]?, ts⟩] := rfl

lemma rateLoop_short (ids : List String) (st : BatchState) (h : ids.length < 2) :
    rateLoop ids st = st := by
  rw [rateLoop_eq_allPairs_foldl]
  rcases ids with _ | ⟨a, _ | ⟨b, t⟩⟩
  · rfl
  · rfl
  · rw [List.length_cons, List.length_cons] at h
    exact absurd h (by omega)

lemma nodup_drop_ne_getD {l : List String} (hnd : l.Nodup) {x : String}
    (hx : x ∈ l.drop 4) {i : ℕ} (hi : i < 4) (hil : i < l.length) :
    x ≠ l.getD i "" := by
  intro he
  have h1 : l.getD i "" = l[i] := List.getD_eq_getElem l "" hil
  have hlen : i < (l.take 4).length := by
    rw [List.length_take]
    omega
  have h2 : l[i] ∈ l.take 4 := by
    have h3 : (l.take 4)[i] = l[i] := List.getElem_take l
    rw [← h3]
    exact List.getElem_mem hlen
  have hd : (l.take 4).Disjoint (l.drop 4) := by
    have hh := hnd
    rw [← List.take_append_drop 4 l, List.nodup_append] at hh
    exact hh.2.2
  rw [he, h1] at hx
  exact hd h2 hx

/-! Helper lemmas on the selection engine. -/

lemma get_media_files_eq1 (table : List MediaRow) (files : List String) (count : ℕ)
    (shuffleA shuffleB shuffleC : List String → List String)
    (choice : List String → String) (hne : ¬ files.isEmpty = true)
    (hcond : (shuffleA files).length ≤ 3 ∨ count ≤ min 3 (shuffleA files).length) :
    get_media_files table files count shuffleA shuffleB shuffleC choice =
      (shuffleB ((shuffleA files).take (min 3 (shuffleA files).length))).take
        (min count ((shuffleA files).take (min 3 (shuffleA files).length)).length) := by
  unfold get_media_files
  rw [if_neg hne, if_pos hcond]

lemma get_media_files_eq2 (table : List MediaRow) (files : List String) (count : ℕ)
    (shuffleA shuffleB shuffleC : List String → List String)
    (choice : List String → String) (hne : ¬ files.isEmpty = true)
    (hcond : ¬ ((shuffleA files).length ≤ 3 ∨ count ≤ min 3 (shuffleA files).length)) :
    get_media_files table files count shuffleA shuffleB shuffleC choice =
      (shuffleC (chosenOf
          (fourthPick (insertFiles table files) (shuffleA files)
            ((shuffleA files).take (min 3 (shuffleA files).length)) choice)
          ((shuffleA files).take (min 3 (shuffleA files).length)))).take
        (min count (chosenOf
          (fourthPick (insertFiles table files) (shuffleA files)
            ((shuffleA files).take (min 3 (shuffleA files).length)) choice)
          ((shuffleA files).take (min 3 (shuffleA files).length))).length) := by
  unfold get_media_files
  rw [if_neg hne, if_neg hcond]

lemma minByKey_mem {α : Type} (k : α → ℚ) (best : α) (xs : List α) :
    minByKey k best xs ∈ best :: xs := by
  induction xs generalizing best with
  | nil => simp [minByKey]
  | cons x xs ih =>
    rw [minByKey]
    split_ifs
    · exact List.mem_cons_of_mem best (ih x)
    · rcases List.mem_cons.mp (ih best) with h | h
      · exact List.mem_cons.mpr (Or.inl h)
      · exact List.mem_cons_of_mem best (List.mem_cons_of_mem x h)

lemma insertFiles_cons (table : List MediaRow) (f : String) (fs : List String) :
    insertFiles table (f :: fs) =
      insertFiles
        (if table.any (fun r => r.filename = f) then table else table ++ [⟨f, 1000, 0⟩])
        fs := rfl

lemma mem_insertFiles {r : MediaRow} {table : List MediaRow} {files : List String}
    (h : r ∈ insertFiles table files) : r ∈ table ∨ r.filename ∈ files := by
  induction files generalizing table with
  | nil => exact Or.inl h
  | cons f fs ih =>
    rw [insertFiles_cons] at h
    rcases ih h with h1 | h1
    · by_cases hc : table.any (fun r => r.filename = f) = true
      · rw [if_pos hc] at h1
        exact Or.inl h1
      · rw [if_neg hc] at h1
        rcases List.mem_append.mp h1 with h2 | h2
        · exact Or.inl h2
        · have he : r = ⟨f, 1000, 0⟩ := List.mem_singleton.mp h2
          subst he
          exact Or.inr (List.mem_cons_self f fs)
    · exact Or.inr (List.mem_cons_of_mem f h1)

lemma fourthPick_spec (table' : List MediaRow) (shuffled base_selection : List String)
    (choice : List String → String) (hch : ∀ l, l ≠ [] → choice l ∈ l) (f : String)
    (h : fourthPick table' shuffled base_selection choice = some f) :
    ((∃ r ∈ table', r.filename = f) ∨ f ∈ shuffled) ∧ f ∉ base_selection := by
  unfold fourthPick at h
  set rated := table'.filter
    (fun r => decide (0 < r.cnt ∧ r.filename ∉ base_selection)) with hrated
  rcases hr : rated with _ | ⟨c, cs⟩
  · rw [hr] at h
    simp only at h
    set remaining := shuffled.filter (fun f => decide (f ∉ base_selection)) with hrem
    by_cases hempty : remaining.isEmpty = true
    · rw [if_pos hempty] at h
      exact absurd h (by simp)
    · rw [if_neg hempty] at h
      have hf : f = choice remaining := (Option.some_inj.mp h).symm
      have hmem : choice remaining ∈ remaining :=
        hch remaining (by simpa [List.isEmpty_iff] using hempty)
      rw [← hf] at hmem
      have hfm := List.mem_filter.mp hmem
      refine ⟨Or.inr hfm.1, by simpa using hfm.2⟩
  · rw [hr] at h
    simp only [Option.some_inj] at h
    have hmem : minByKey (fun r =>
        |r.elo - (base_selection.map (lookupElo table')).sum / (base_selection.length : ℚ)|)
        c cs ∈ c :: cs := minByKey_mem _ c cs
    rw [← hr] at hmem
    have hmem2 := List.mem_filter.mp (hrated ▸ hmem)
    have hprop := of_decide_eq_true hmem2.2
    rw [← h]
    exact ⟨Or.inl ⟨_, hmem2.1, rfl⟩, hprop.2⟩

lemma chosenOf_length (fourth : Option String) (bs : List String) :
    (chosenOf fourth bs).length ≤ bs.length + 1 := by
  unfold chosenOf
  rcases fourth with _ | f
  · simp
  · by_cases hf : f = "" <;> simp [hf]

lemma mem_chosenOf {x : String} {fourth : Option String} {bs : List String}
    (h : x ∈ chosenOf fourth bs) : x ∈ bs ∨ fourth = some x := by
  unfold chosenOf at h
  rcases List.mem_append.mp h with h1 | h2
  · exact Or.inl h1
  · rcases fourth with _ | f
    · simp at h2
    · dsimp only at h2
      by_cases hf : f = ""
      · rw [hf] at h2
        simp at h2
      · rw [if_neg hf] at h2
        rw [List.mem_singleton.mp h2]
        exact Or.inr rfl

lemma chosenOf_nodup {fourth : Option String} {bs : List String} (hnd : bs.Nodup)
    (hf : ∀ f, fourth = some f → f ∉ bs) : (chosenOf fourth bs).Nodup := by
  unfold chosenOf
  rcases fourth with _ | f
  · simpa using hnd
  · dsimp only
    by_cases hfe : f = ""
    · simp [hfe, hnd]
    · rw [if_neg hfe, List.nodup_append]
      exact ⟨hnd, List.nodup_singleton f, by
        intro a ha hmem
        rw [List.mem_singleton.mp hmem] at ha
        exact hf f rfl ha⟩

/-! Helper lemmas on descending sorts and Python slices. -/

lemma sortByDescQ_perm {α : Type} (key : α → ℚ) (l : List α) :
    (sortByDescQ key l).Perm l :=
  List.perm_insertionSort _ l

lemma sortByDescQ_pairwise {α : Type} (key : α → ℚ) (l : List α) :
    (sortByDescQ key l).Pairwise fun a b => key b ≤ key a := by
  haveI : IsTotal α fun a b => key b ≤ key a := ⟨fun a b => le_total (key b) (key a)⟩
  haveI : IsTrans α fun a b => key b ≤ key a := ⟨fun _ _ _ hab hbc => le_trans hbc hab⟩
  exact List.sorted_insertionSort _ l

lemma sortByDescQ_map_sorted {α : Type} (key : α → ℚ) (l : List α) :
    ((sortByDescQ key l).map key).Sorted fun a b => b ≤ a :=
  List.pairwise_map.mpr (sortByDescQ_pairwise key l)

lemma sortByDescQ_drop_reverse_sorted {α : Type} (key : α → ℚ) (l : List α) (k : ℕ) :
    ((((sortByDescQ key l).drop k).reverse).map key).Sorted fun a b => a ≤ b := by
  have hd : ((sortByDescQ key l).drop k).Pairwise (fun a b => key b ≤ key a) :=
    List.Pairwise.sublist (List.drop_sublist k _) (sortByDescQ_pairwise key l)
  rw [List.map_reverse]
  exact List.pairwise_reverse.mpr (List.pairwise_map.mpr hd)

lemma pyLastSlice_pos {α : Type} (l : List α) {limit : ℕ} (h : 0 < limit) :
    pyLastSlice l limit = l.drop (l.length - limit) := by
  unfold pyLastSlice
  rw [if_neg (by omega)]

/-! Helper lemmas on Python min and max and the dict key order. -/

lemma foldl_min_mem (t : List ℚ) (a : ℚ) : t.foldl min a ∈ a :: t := by
  induction t generalizing a with
  | nil => simp
  | cons x xs ih =>
    rw [List.foldl_cons]
    rcases List.mem_cons.mp (ih (min a x)) with h | h
    · rcases min_choice a x with hm | hm <;> rw [h, hm]
      · exact List.mem_cons_self a (x :: xs)
      · exact List.mem_cons_of_mem a (List.mem_cons_self x xs)
    · exact List.mem_cons_of_mem a (List.mem_cons_of_mem x h)

lemma foldl_min_le (t : List ℚ) (a : ℚ) : ∀ x ∈ a :: t, t.foldl min a ≤ x := by
  induction t generalizing a with
  | nil =>
    intro x hx
    rw [List.mem_singleton.mp hx]
    exact le_refl _
  | cons c cs ih =>
    intro x hx
    rw [List.foldl_cons]
    rcases List.mem_cons.mp hx with h | h
    · rw [h]
      exact le_trans (ih (min a c) (min a c) (List.mem_cons_self _ _)) (min_le_left a c)
    · rcases List.mem_cons.mp h with h2 | h2
      · rw [h2]
        exact le_trans (ih (min a c) (min a c) (List.mem_cons_self _ _)) (min_le_right a c)
      · exact ih (min a c) x (List.mem_cons_of_mem _ h2)

lemma foldl_max_mem (t : List ℚ) (a : ℚ) : t.foldl max a ∈ a :: t := by
  induction t generalizing a with
  | nil => simp
  | cons x xs ih =>
    rw [List.foldl_cons]
    rcases List.mem_cons.mp (ih (max a x)) with h | h
    · rcases max_choice a x with hm | hm <;> rw [h, hm]
      · exact List.mem_cons_self a (x :: xs)
      · exact List.mem_cons_of_mem a (List.mem_cons_self x xs)
    · exact List.mem_cons_of_mem a (List.mem_cons_of_mem x h)

lemma foldl_le_max (t : List ℚ) (a : ℚ) : ∀ x ∈ a :: t, x ≤ t.foldl max a := by
  induction t generalizing a with
  | nil =>
    intro x hx
    rw [List.mem_singleton.mp hx]
    exact le_refl _
  | cons c cs ih =>
    intro x hx
    rw [List.foldl_cons]
    rcases List.mem_cons.mp hx with h | h
    · rw [h]
      exact le_trans (le_max_left a c) (ih (max a c) (max a c) (List.mem_cons_self _ _))
    · rcases List.mem_cons.mp h with h2 | h2
      · rw [h2]
        exact le_trans (le_max_right a c) (ih (max a c) (max a c) (List.mem_cons_self _ _))
      · exact ih (max a c) x (List.mem_cons_of_mem _ h2)

lemma listMin_mem {l : List ℚ} (h : l ≠ []) : listMin l ∈ l := by
  rcases l with _ | ⟨a, t⟩
  · exact absurd rfl h
  · exact foldl_min_mem t a

lemma listMin_le {l : List ℚ} (x : ℚ) (hx : x ∈ l) : listMin l ≤ x := by
  rcases l with _ | ⟨a, t⟩
  · simp at hx
  · exact foldl_min_le t a x hx

lemma listMax_mem {l : List ℚ} (h : l ≠ []) : listMax l ∈ l := by
  rcases l with _ | ⟨a, t⟩
  · exact absurd rfl h
  · exact foldl_max_mem t a

lemma le_listMax {l : List ℚ} (x : ℚ) (hx : x ∈ l) : x ≤ listMax l := by
  rcases l with _ | ⟨a, t⟩
  · simp at hx
  · exact foldl_le_max t a x hx

lemma mem_foldl_dedup (l : List String) : ∀ (acc : List String) (x : String),
    (x ∈ l.foldl (fun acc y => if y ∈ acc then acc else acc ++ [y]) acc) ↔
      (x ∈ acc ∨ x ∈ l) := by
  induction l with
  | nil =>
    intro acc x
    simp
  | cons a t ih =>
    intro acc x
    rw [List.foldl_cons, ih]
    by_cases ha : a ∈ acc
    · rw [if_pos ha]
      constructor
      · rintro (h | h)
        · exact Or.inl h
        · exact Or.inr (List.mem_cons_of_mem a h)
      · rintro (h | h)
        · exact Or.inl h
        · rcases List.mem_cons.mp h with h2 | h2
          · exact Or.inl (h2 ▸ ha)
          · exact Or.inr h2
    · rw [if_neg ha]
      simp only [List.mem_append, List.mem_singleton, List.mem_cons]
      tauto

lemma mem_firstDedup {x : String} {l : List String} :
    x ∈ firstDedup l ↔ x ∈ l := by
  unfold firstDedup
  rw [mem_foldl_dedup]
  simp

lemma headD_mem (l : List String) (h : l ≠ []) : l.headD "" ∈ l := by
  cases l with
  | nil => exact absurd rfl h
  | cons a t => simp

/-- A rating store with every item at the creation defaults and an empty
event log, used to instantiate universally quantified theorems. -/
noncomputable def storeZero : Store :=
  ⟨fun _ => 1000, fun _ => 0, fun _ _ => 1000, fun _ _ => 0, []⟩

/-- A batch dictionary state with all ratings 1000 and all counts 0. -/
noncomputable def batchZero : BatchState :=
  ⟨fun _ => 1000, fun _ => 0, fun _ => 1000, fun _ => 0⟩

/-! The claims. -/

/-- C1: for every submitted batch, the pairwise Elo loop of `rate`
(K = 32, logistic expectation as in `pairUpdate`, one update per index
pair `(i, j)` with `i < j` in the fixed nested-loop order, each update of
global and per-user ratings reading the values left by earlier pairs)
computes exactly the sequential left fold of `pairUpdate` over `pairList`,
and equivalently over the (winner, loser) name pairs of the submitted
order. -/
theorem elo_batch_equals_pair_foldl (ids : List String) (st : BatchState) :
    rateLoop ids st =
      (pairList ids.length).foldl
        (fun acc p => pairUpdate (ids.getD p.1 "") (ids.getD p.2 "") acc) st ∧
    rateLoop ids st =
      (allPairs ids).foldl (fun acc p => pairUpdate p.1 p.2 acc) st :=
  ⟨rateLoop_eq_pairList_foldl ids st, rateLoop_eq_allPairs_foldl ids st⟩

/-- C2: a single pairwise Elo comparison computed in isolation is
zero-sum: the winner's rating delta is the negation of the loser's, for
the global ratings and for the per-user ratings. -/
theorem elo_pair_zero_sum (st : BatchState) (w l : String) (h : w ≠ l) :
    ((pairUpdate w l st).ratings w - st.ratings w
        = -((pairUpdate w l st).ratings l - st.ratings l)) ∧
    ((pairUpdate w l st).userRatings w - st.userRatings w
        = -((pairUpdate w l st).userRatings l - st.userRatings l)) := by
  constructor
  · rw [pairUpdate_ratings_winner w l st h, pairUpdate_ratings_loser w l st]
    have hs := eloExpected_add (st.ratings w) (st.ratings l)
    linarith
  · rw [pairUpdate_userRatings_winner w l st h, pairUpdate_userRatings_loser w l st]
    have hs := eloExpected_add (st.userRatings w) (st.userRatings l)
    linarith

theorem elo_pair_zero_sum_witness :
    (("a" : String) ≠ "b") ∧
    (((pairUpdate "a" "b" batchZero).ratings "a" - batchZero.ratings "a"
        = -((pairUpdate "a" "b" batchZero).ratings "b" - batchZero.ratings "b")) ∧
     ((pairUpdate "a" "b" batchZero).userRatings "a" - batchZero.userRatings "a"
        = -((pairUpdate "a" "b" batchZero).userRatings "b" - batchZero.userRatings "b"))) :=
  ⟨by decide, elo_pair_zero_sum batchZero "a" "b" (by decide)⟩

/-- C10: in every single pairwise Elo update on two distinct items the
winner's rating strictly increases and the loser's strictly decreases,
both globally and per-user, for all pre-comparison ratings. -/
theorem elo_winner_gains_loser_drops (st : BatchState) (w l : String) (h : w ≠ l) :
    (st.ratings w < (pairUpdate w l st).ratings w) ∧
    ((pairUpdate w l st).ratings l < st.ratings l) ∧
    (st.userRatings w < (pairUpdate w l st).userRatings w) ∧
    ((pairUpdate w l st).userRatings l < st.userRatings l) := by
  refine ⟨?_, ?_, ?_, ?_⟩
  · rw [pairUpdate_ratings_winner w l st h]
    have he := eloExpected_lt_one (st.ratings w) (st.ratings l)
    linarith
  · rw [pairUpdate_ratings_loser w l st]
    have he := eloExpected_pos (st.ratings l) (st.ratings w)
    linarith
  · rw [pairUpdate_userRatings_winner w l st h]
    have he := eloExpected_lt_one (st.userRatings w) (st.userRatings l)
    linarith
  · rw [pairUpdate_userRatings_loser w l st]
    have he := eloExpected_pos (st.userRatings l) (st.userRatings w)
    linarith

theorem elo_winner_gains_loser_drops_witness :
    (("a" : String) ≠ "b") ∧
    ((batchZero.ratings "a" < (pairUpdate "a" "b" batchZero).ratings "a") ∧
     ((pairUpdate "a" "b" batchZero).ratings "b" < batchZero.ratings "b") ∧
     (batchZero.userRatings "a" < (pairUpdate "a" "b" batchZero).userRatings "a") ∧
     ((pairUpdate "a" "b" batchZero).userRatings "b" < batchZero.userRatings "b")) :=
  ⟨by decide, elo_winner_gains_loser_drops batchZero "a" "b" (by decide)⟩

/-- C3: submitting a ranking of n distinct items increments the global and
the submitting user's count of every item in the batch by exactly n - 1,
and leaves every other global count and every other user-item count
unchanged. -/
theorem submit_counts_increment (username : String) (files : List String) (ts : ℕ)
    (s : Store) (hnd : files.Nodup) :
    (∀ x ∈ files,
      (rateFiles username files ts s).cnt x = s.cnt x + (files.length - 1) ∧
      (rateFiles username files ts s).ucnt username x
        = s.ucnt username x + (files.length - 1)) ∧
    (∀ x, x ∉ files → (rateFiles username files ts s).cnt x = s.cnt x) ∧
    (∀ u x, u ≠ username ∨ x ∉ files →
      (rateFiles username files ts s).ucnt u x = s.ucnt u x) := by
  refine ⟨?_, ?_, ?_⟩
  · intro x hx
    have h := rateLoop_counts files ⟨s.elo, s.cnt, s.uelo username, s.ucnt username⟩ x hnd hx
    constructor
    · rw [rateFiles_cnt, if_pos hx]
      exact h.1
    · rw [rateFiles_ucnt, if_pos ⟨rfl, hx⟩]
      exact h.2
  · intro x hx
    rw [rateFiles_cnt, if_neg hx]
  · intro u x h
    rw [rateFiles_ucnt, if_neg]
    rintro ⟨h1, h2⟩
    rcases h with h | h
    · exact h h1
    · exact h h2

theorem submit_counts_increment_witness :
    (["a", "b"] : List String).Nodup ∧
    ((∀ x ∈ (["a", "b"] : List String),
      (rateFiles "u" ["a", "b"] 0 storeZero).cnt x
          = storeZero.cnt x + ((["a", "b"] : List String).length - 1) ∧
      (rateFiles "u" ["a", "b"] 0 storeZero).ucnt "u" x
          = storeZero.ucnt "u" x + ((["a", "b"] : List String).length - 1)) ∧
     (∀ x, x ∉ (["a", "b"] : List String) →
      (rateFiles "u" ["a", "b"] 0 storeZero).cnt x = storeZero.cnt x) ∧
     (∀ u x, u ≠ "u" ∨ x ∉ (["a", "b"] : List String) →
      (rateFiles "u" ["a", "b"] 0 storeZero).ucnt u x = storeZero.ucnt u x)) :=
  ⟨by decide, submit_counts_increment "u" ["a", "b"] 0 storeZero (by decide)⟩

/-- C8: submitting fewer than two items still appends the ranking event
carrying the submitted order and timestamp, generates no candidate pair,
and leaves every rating and count, global and per-user, unchanged. -/
theorem short_submission_logs_event_only (username : String) (files : List String)
    (ts : ℕ) (s : Store) (h : files.length < 2) :
    (rateFiles username files ts s).rankings =
      s.rankings ++ [⟨username, files[0]?, files[1]?, files[2]?, files[3]?, ts⟩] ∧
    allPairs files = [] ∧
    (∀ f, (rateFiles username files ts s).elo f = s.elo f) ∧
    (∀ f, (rateFiles username files ts s).cnt f = s.cnt f) ∧
    (∀ u f, (rateFiles username files ts s).uelo u f = s.uelo u f) ∧
    (∀ u f, (rateFiles username files ts s).ucnt u f = s.ucnt u f) := by
  have hloop := rateLoop_short files
    ⟨s.elo, s.cnt, s.uelo username, s.ucnt username⟩ h
  refine ⟨rateFiles_rankings username files ts s, ?_, ?_, ?_, ?_, ?_⟩
  · rcases files with _ | ⟨a, _ | ⟨b, t⟩⟩
    · rfl
    · rfl
    · rw [List.length_cons, List.length_cons] at h
      exact absurd h (by omega)
  · intro f
    rw [rateFiles_elo, hloop]
    split_ifs <;> rfl
  · intro f
    rw [rateFiles_cnt, hloop]
    split_ifs <;> rfl
  · intro u f
    rw [rateFiles_uelo, hloop]
    split_ifs with hc
    · rw [hc.1]
    · rfl
  · intro u f
    rw [rateFiles_ucnt, hloop]
    split_ifs with hc
    · rw [hc.1]
    · rfl

theorem short_submission_logs_event_only_witness :
    (["a"] : List String).length < 2 ∧
    ((rateFiles "u" ["a"] 7 storeZero).rankings =
      storeZero.rankings ++
        [⟨"u", (["a"] : List String)[0]?, (["a"] : List String)[1]?,
          (["a"] : List String)[2]?, (["a"] : List String)[3]?, 7⟩] ∧
     allPairs ["a"] = [] ∧
     (∀ f, (rateFiles "u" ["a"] 7 storeZero).elo f = storeZero.elo f) ∧
     (∀ f, (rateFiles "u" ["a"] 7 storeZero).cnt f = storeZero.cnt f) ∧
     (∀ u f, (rateFiles "u" ["a"] 7 storeZero).uelo u f = storeZero.uelo u f) ∧
     (∀ u f, (rateFiles "u" ["a"] 7 storeZero).ucnt u f = storeZero.ucnt u f)) :=
  ⟨by decide, short_submission_logs_event_only "u" ["a"] 7 storeZero (by decide)⟩

/-- C9: the ranking event appended for a submission of more than four
items records exactly the first four item names, while every item beyond
the fourth still gets its full n - 1 count increments (global and
per-user) and appears in none of the four recorded slots. -/
theorem event_records_first_four_only (username : String) (files : List String)
    (ts : ℕ) (s : Store) (h4 : 4 < files.length) (hnd : files.Nodup) :
    (rateFiles username files ts s).rankings =
      s.rankings ++ [⟨username, some (files.getD 0 ""), some (files.getD 1 ""),
        some (files.getD 2 ""), some (files.getD 3 ""), ts⟩] ∧
    ∀ x ∈ files.drop 4,
      (x ≠ files.getD 0 "" ∧ x ≠ files.getD 1 "" ∧
       x ≠ files.getD 2 "" ∧ x ≠ files.getD 3 "") ∧
      (rateFiles username files ts s).cnt x = s.cnt x + (files.length - 1) ∧
      (rateFiles username files ts s).ucnt username x
        = s.ucnt username x + (files.length - 1) := by
  constructor
  · rw [rateFiles_rankings]
    have hs : ∀ i, i < files.length → files[i]? = some (files.getD i "") := by
      intro i hi
      rw [List.getElem?_eq_getElem hi, List.getD_eq_getElem files "" hi]
    rw [hs 0 (by omega), hs 1 (by omega), hs 2 (by omega), hs 3 (by omega)]
  · intro x hx
    have hxf : x ∈ files := List.mem_of_mem_drop hx
    have h := rateLoop_counts files ⟨s.elo, s.cnt, s.uelo username, s.ucnt username⟩ x hnd hxf
    refine ⟨⟨?_, ?_, ?_, ?_⟩, ?_, ?_⟩
    · exact nodup_drop_ne_getD hnd hx (by omega) (by omega)
    · exact nodup_drop_ne_getD hnd hx (by omega) (by omega)
    · exact nodup_drop_ne_getD hnd hx (by omega) (by omega)
    · exact nodup_drop_ne_getD hnd hx (by omega) (by omega)
    · rw [rateFiles_cnt, if_pos hxf]
      exact h.1
    · rw [rateFiles_ucnt, if_pos ⟨rfl, hxf⟩]
      exact h.2

theorem event_records_first_four_only_witness :
    4 < (["a", "b", "c", "d", "e"] : List String).length ∧
    (["a", "b", "c", "d", "e"] : List String).Nodup ∧
    ((rateFiles "u" ["a", "b", "c", "d", "e"] 3 storeZero).rankings =
      storeZero.rankings ++
        [⟨"u", some ((["a", "b", "c", "d", "e"] : List String).getD 0 ""),
          some ((["a", "b", "c", "d", "e"] : List String).getD 1 ""),
          some ((["a", "b", "c", "d", "e"] : List String).getD 2 ""),
          some ((["a", "b", "c", "d", "e"] : List String).getD 3 ""), 3⟩] ∧
     ∀ x ∈ (["a", "b", "c", "d", "e"] : List String).drop 4,
      (x ≠ (["a", "b", "c", "d", "e"] : List String).getD 0 "" ∧
       x ≠ (["a", "b", "c", "d", "e"] : List String).getD 1 "" ∧
       x ≠ (["a", "b", "c", "d", "e"] : List String).getD 2 "" ∧
       x ≠ (["a", "b", "c", "d", "e"] : List String).getD 3 "") ∧
      (rateFiles "u" ["a", "b", "c", "d", "e"] 3 storeZero).cnt x
        = storeZero.cnt x + ((["a", "b", "c", "d", "e"] : List String).length - 1) ∧
      (rateFiles "u" ["a", "b", "c", "d", "e"] 3 storeZero).ucnt "u" x
        = storeZero.ucnt "u" x + ((["a", "b", "c", "d", "e"] : List String).length - 1)) :=
  ⟨by decide, by decide,
    event_records_first_four_only "u" ["a", "b", "c", "d", "e"] 3 storeZero
      (by decide) (by decide)⟩

/-- C4 counterexample: a returned name need not belong to the supplied
catalog.  With catalog `["a", "b", "c", "d"]` and a pre-existing media row
`"ghost"` with a positive rating count, the fourth slot is filled from the
stored table and the selection returns `"ghost"`, which is not in the
catalog. -/
theorem select_batch_catalog_counterexample :
    "ghost" ∈ get_media_files [⟨"ghost", 1000, 1⟩] ["a", "b", "c", "d"] 4
        (fun l => l) (fun l => l) (fun l => l) (fun l => l.headD "") ∧
    "ghost" ∉ (["a", "b", "c", "d"] : List String) := by
  constructor
  · decide
  · decide

/-- C4 (amended): for a duplicate-free catalog, with the shuffles
permuting their input and `choice` picking a member of a nonempty list,
`get_media_files` returns between 0 and `min k c` names, all pairwise
distinct, and every returned name belongs to the supplied catalog or to
the pre-existing media table. -/
theorem select_batch_bounds_amended (table : List MediaRow) (files : List String)
    (count : ℕ) (shuffleA shuffleB shuffleC : List String → List String)
    (choice : List String → String)
    (hA : ∀ l, (shuffleA l).Perm l) (hB : ∀ l, (shuffleB l).Perm l)
    (hC : ∀ l, (shuffleC l).Perm l) (hch : ∀ l, l ≠ [] → choice l ∈ l)
    (hnd : files.Nodup) :
    (get_media_files table files count shuffleA shuffleB shuffleC choice).length
        ≤ min count files.length ∧
    (get_media_files table files count shuffleA shuffleB shuffleC choice).Nodup ∧
    ∀ x ∈ get_media_files table files count shuffleA shuffleB shuffleC choice,
      x ∈ files ∨ x ∈ table.map fun r => r.filename := by
  by_cases hne : files.isEmpty = true
  · have hnil : files = [] := List.isEmpty_iff.mp hne
    subst hnil
    unfold get_media_files
    simp
  · have hpermA := hA files
    have hlen : (shuffleA files).length = files.length := hpermA.length_eq
    have hndA : (shuffleA files).Nodup := hpermA.symm.nodup hnd
    have hbs_sub : ((shuffleA files).take (min 3 (shuffleA files).length)).Sublist
        (shuffleA files) := List.take_sublist _ _
    have hbs_nd : ((shuffleA files).take (min 3 (shuffleA files).length)).Nodup :=
      List.Nodup.sublist hbs_sub hndA
    have hbs_mem : ∀ x ∈ (shuffleA files).take (min 3 (shuffleA files).length),
        x ∈ files := fun x hx => hpermA.mem_iff.mp (hbs_sub.subset hx)
    have hbs_len : ((shuffleA files).take (min 3 (shuffleA files).length)).length
        ≤ files.length := by
      rw [List.length_take]
      omega
    by_cases hcond : (shuffleA files).length ≤ 3 ∨ count ≤ min 3 (shuffleA files).length
    · rw [get_media_files_eq1 table files count shuffleA shuffleB shuffleC choice hne hcond]
      have hpB := hB ((shuffleA files).take (min 3 (shuffleA files).length))
      refine ⟨?_, ?_, ?_⟩
      · rw [List.length_take]
        have h2 := hpB.length_eq
        omega
      · exact List.Nodup.sublist (List.take_sublist _ _) (hpB.symm.nodup hbs_nd)
      · intro x hx
        exact Or.inl (hbs_mem x (hpB.mem_iff.mp ((List.take_sublist _ _).subset hx)))
    · rw [get_media_files_eq2 table files count shuffleA shuffleB shuffleC choice hne hcond]
      push_neg at hcond
      have hL4 : 4 ≤ files.length := by omega
      have hfspec : ∀ f,
          fourthPick (insertFiles table files) (shuffleA files)
              ((shuffleA files).take (min 3 (shuffleA files).length)) choice = some f →
          ((∃ r ∈ insertFiles table files, r.filename = f) ∨ f ∈ shuffleA files) ∧
            f ∉ (shuffleA files).take (min 3 (shuffleA files).length) :=
        fun f hf => fourthPick_spec _ _ _ _ hch f hf
    -- the chosen batch: distinct, at most four entries, members of the
    -- catalog or of the stored table
      have hch_nd : (chosenOf
          (fourthPick (insertFiles table files) (shuffleA files)
            ((shuffleA files).take (min 3 (shuffleA files).length)) choice)
          ((shuffleA files).take (min 3 (shuffleA files).length))).Nodup :=
        chosenOf_nodup hbs_nd (fun f hf => (hfspec f hf).2)
      have hch_len : (chosenOf
          (fourthPick (insertFiles table files) (shuffleA files)
            ((shuffleA files).take (min 3 (shuffleA files).length)) choice)
          ((shuffleA files).take (min 3 (shuffleA files).length))).length ≤ 4 := by
        have h1 := chosenOf_length
          (fourthPick (insertFiles table files) (shuffleA files)
            ((shuffleA files).take (min 3 (shuffleA files).length)) choice)
          ((shuffleA files).take (min 3 (shuffleA files).length))
        rw [List.length_take] at h1
        omega
      have hch_mem : ∀ x ∈ chosenOf
          (fourthPick (insertFiles table files) (shuffleA files)
            ((shuffleA files).take (min 3 (shuffleA files).length)) choice)
          ((shuffleA files).take (min 3 (shuffleA files).length)),
          x ∈ files ∨ x ∈ table.map fun r => r.filename := by
        intro x hx
        rcases mem_chosenOf hx with hx1 | hx2
        · exact Or.inl (hbs_mem x hx1)
        · have hspec := hfspec x hx2
          rcases hspec.1 with ⟨r, hr, hrf⟩ | hms
          · rcases mem_insertFiles hr with hrt | hrfiles
            · exact Or.inr (List.mem_map.mpr ⟨r, hrt, hrf⟩)
            · exact Or.inl (hrf ▸ hrfiles)
          · exact Or.inl (hpermA.mem_iff.mp hms)
      have hpC := hC (chosenOf
        (fourthPick (insertFiles table files) (shuffleA files)
          ((shuffleA files).take (min 3 (shuffleA files).length)) choice)
        ((shuffleA files).take (min 3 (shuffleA files).length)))
      refine ⟨?_, ?_, ?_⟩
      · rw [List.length_take]
        have h2 := hpC.length_eq
        omega
      · exact List.Nodup.sublist (List.take_sublist _ _) (hpC.symm.nodup hch_nd)
      · intro x hx
        exact hch_mem x (hpC.mem_iff.mp ((List.take_sublist _ _).subset hx))

theorem select_batch_bounds_amended_witness :
    (∀ l : List String, ((fun l => l) l).Perm l) ∧
    (∀ l : List String, l ≠ [] → ((fun l => l.headD "") l) ∈ l) ∧
    (["a", "b", "c", "d"] : List String).Nodup ∧
    ((get_media_files [] ["a", "b", "c", "d"] 2
        (fun l => l) (fun l => l) (fun l => l) (fun l => l.headD "")).length
        ≤ min 2 (["a", "b", "c", "d"] : List String).length ∧
     (get_media_files [] ["a", "b", "c", "d"] 2
        (fun l => l) (fun l => l) (fun l => l) (fun l => l.headD "")).Nodup ∧
     ∀ x ∈ get_media_files [] ["a", "b", "c", "d"] 2
        (fun l => l) (fun l => l) (fun l => l) (fun l => l.headD ""),
       x ∈ (["a", "b", "c", "d"] : List String) ∨
         x ∈ ([] : List MediaRow).map fun r => r.filename) :=
  ⟨fun l => List.Perm.refl l, fun l h => headD_mem l h, by decide,
    select_batch_bounds_amended [] ["a", "b", "c", "d"] 2
      (fun l => l) (fun l => l) (fun l => l) (fun l => l.headD "")
      (fun l => List.Perm.refl l) (fun l => List.Perm.refl l)
      (fun l => List.Perm.refl l) (fun l h => headD_mem l h) (by decide)⟩

/-- C7: on a catalog of at most three items and a requested batch size of
at least the catalog size, the selection returns a full permutation of
the catalog. -/
theorem small_catalog_full_permutation (table : List MediaRow) (files : List String)
    (count : ℕ) (shuffleA shuffleB shuffleC : List String → List String)
    (choice : List String → String)
    (hA : ∀ l, (shuffleA l).Perm l) (hB : ∀ l, (shuffleB l).Perm l)
    (hc : files.length ≤ 3) (hk : files.length ≤ count) :
    (get_media_files table files count shuffleA shuffleB shuffleC choice).Perm files := by
  by_cases hne : files.isEmpty = true
  · have hnil : files = [] := List.isEmpty_iff.mp hne
    subst hnil
    unfold get_media_files
    simp
  · have hlen : (shuffleA files).length = files.length := (hA files).length_eq
    rw [get_media_files_eq1 table files count shuffleA shuffleB shuffleC choice hne
      (Or.inl (by omega))]
    have hbc : min 3 (shuffleA files).length = (shuffleA files).length := by omega
    rw [hbc, List.take_length]
    have hlenB : (shuffleB (shuffleA files)).length = (shuffleA files).length :=
      (hB _).length_eq
    have hmin : min count (shuffleA files).length = (shuffleA files).length := by omega
    rw [hmin, ← hlenB, List.take_length]
    exact (hB _).trans (hA files)

theorem small_catalog_full_permutation_witness :
    (∀ l : List String, ((fun l => l) l).Perm l) ∧
    (["a", "b"] : List String).length ≤ 3 ∧
    (["a", "b"] : List String).length ≤ 3 ∧
    (get_media_files [] ["a", "b"] 3
        (fun l => l) (fun l => l) (fun l => l) (fun l => l.headD "")).Perm
      ["a", "b"] :=
  ⟨fun l => List.Perm.refl l, by decide, by decide,
    small_catalog_full_permutation [] ["a", "b"] 3
      (fun l => l) (fun l => l) (fun l => l) (fun l => l.headD "")
      (fun l => List.Perm.refl l) (fun l => List.Perm.refl l)
      (by decide) (by decide)⟩

/-- C5 counterexample: the "lowest" list is not ordered rating-descending.
With global rows rated 1, 2, 3 and limit 2, the lowest list carries
ratings `[1, 2]`, which is ascending. -/
theorem top_bottom_lowest_counterexample :
    ((get_global_media_stats_with_user [("a", 1, 0), ("b", 2, 0), ("c", 3, 0)] [] 2).2.map
        fun r => r.2.1) = [1, 2] ∧
    ¬ (((get_global_media_stats_with_user [("a", 1, 0), ("b", 2, 0), ("c", 3, 0)] [] 2).2.map
        fun r => r.2.1).Sorted fun a b => b ≤ a) := by
  constructor
  · decide
  · decide

/-- C5 (amended): for every store state and positive limit, the
top-and-bottom queries sort the rows by rating descending, return
"highest" as the first `limit` entries and "lowest" as the last `limit`
entries reversed, so that the lowest list is ordered rating-ascending
(worst first); this holds for the global query (with user annotation) and
for the per-user query. -/
theorem top_bottom_slices_amended (global_rows user_rows : List (String × ℚ × ℕ))
    (rows : List (String × ℚ × ℚ × ℕ × ℕ)) (limit : ℕ) (hl : 0 < limit) :
    ((sortByDescQ (fun r => r.2.1) global_rows).Perm global_rows ∧
     (((sortByDescQ (fun r => r.2.1) global_rows).map fun r => r.2.1).Sorted
        fun a b => b ≤ a) ∧
     (get_global_media_stats_with_user global_rows user_rows limit).1 =
       ((sortByDescQ (fun r => r.2.1) global_rows).take limit).map (annotateRow user_rows) ∧
     (get_global_media_stats_with_user global_rows user_rows limit).2 =
       (((sortByDescQ (fun r => r.2.1) global_rows).drop
         ((sortByDescQ (fun r => r.2.1) global_rows).length - limit)).reverse).map
           (annotateRow user_rows) ∧
     (((get_global_media_stats_with_user global_rows user_rows limit).2.map
         fun r => r.2.1).Sorted fun a b => a ≤ b)) ∧
    ((sortByDescQ (fun r => r.2.1) rows).Perm rows ∧
     (((sortByDescQ (fun r => r.2.1) rows).map fun r => r.2.1).Sorted
        fun a b => b ≤ a) ∧
     (get_user_media_stats rows limit).1 =
       (sortByDescQ (fun r => r.2.1) rows).take limit ∧
     (get_user_media_stats rows limit).2 =
       ((sortByDescQ (fun r => r.2.1) rows).drop
         ((sortByDescQ (fun r => r.2.1) rows).length - limit)).reverse ∧
     (((get_user_media_stats rows limit).2.map fun r => r.2.1).Sorted
        fun a b => a ≤ b)) := by
  have hg1 : (get_global_media_stats_with_user global_rows user_rows limit).1 =
      ((sortByDescQ (fun r => r.2.1) global_rows).take limit).map (annotateRow user_rows) := by
    by_cases hge : global_rows.isEmpty = true
    · have h0 : global_rows = [] := List.isEmpty_iff.mp hge
      subst h0
      simp [get_global_media_stats_with_user, sortByDescQ]
    · unfold get_global_media_stats_with_user
      rw [if_neg hge]
  have hg2 : (get_global_media_stats_with_user global_rows user_rows limit).2 =
      (((sortByDescQ (fun r => r.2.1) global_rows).drop
        ((sortByDescQ (fun r => r.2.1) global_rows).length - limit)).reverse).map
          (annotateRow user_rows) := by
    by_cases hge : global_rows.isEmpty = true
    · have h0 : global_rows = [] := List.isEmpty_iff.mp hge
      subst h0
      simp [get_global_media_stats_with_user, sortByDescQ]
    · unfold get_global_media_stats_with_user
      rw [if_neg hge]
      dsimp only
      rw [pyLastSlice_pos _ hl]
  have hu1 : (get_user_media_stats rows limit).1 =
      (sortByDescQ (fun r => r.2.1) rows).take limit := by
    by_cases hre : rows.isEmpty = true
    · have h0 : rows = [] := List.isEmpty_iff.mp hre
      subst h0
      simp [get_user_media_stats, sortByDescQ]
    · unfold get_user_media_stats
      rw [if_neg hre]
  have hu2 : (get_user_media_stats rows limit).2 =
      ((sortByDescQ (fun r => r.2.1) rows).drop
        ((sortByDescQ (fun r => r.2.1) rows).length - limit)).reverse := by
    by_cases hre : rows.isEmpty = true
    · have h0 : rows = [] := List.isEmpty_iff.mp hre
      subst h0
      simp [get_user_media_stats, sortByDescQ]
    · unfold get_user_media_stats
      rw [if_neg hre]
      dsimp only
      rw [pyLastSlice_pos _ hl]
  refine ⟨⟨sortByDescQ_perm _ _, sortByDescQ_map_sorted _ _, hg1, hg2, ?_⟩,
          ⟨sortByDescQ_perm _ _, sortByDescQ_map_sorted _ _, hu1, hu2, ?_⟩⟩
  · rw [hg2, List.map_map]
    have hcomp : ((fun r : String × ℚ × Option ℚ × ℕ × ℕ => r.2.1) ∘ annotateRow user_rows)
        = fun g : String × ℚ × ℕ => g.2.1 := rfl
    rw [hcomp]
    exact sortByDescQ_drop_reverse_sorted _ _ _
  · rw [hu2]
    exact sortByDescQ_drop_reverse_sorted _ _ _

theorem top_bottom_slices_amended_witness :
    0 < 1 ∧
    (((sortByDescQ (fun r => r.2.1) ([] : List (String × ℚ × ℕ))).Perm [] ∧
      (((sortByDescQ (fun r => r.2.1) ([] : List (String × ℚ × ℕ))).map
          fun r => r.2.1).Sorted fun a b => b ≤ a) ∧
      (get_global_media_stats_with_user [] [] 1).1 =
        ((sortByDescQ (fun r => r.2.1) ([] : List (String × ℚ × ℕ))).take 1).map
          (annotateRow []) ∧
      (get_global_media_stats_with_user [] [] 1).2 =
        (((sortByDescQ (fun r => r.2.1) ([] : List (String × ℚ × ℕ))).drop
          ((sortByDescQ (fun r => r.2.1) ([] : List (String × ℚ × ℕ))).length - 1)).reverse).map
            (annotateRow []) ∧
      (((get_global_media_stats_with_user [] [] 1).2.map
          fun r => r.2.1).Sorted fun a b => a ≤ b)) ∧
     ((sortByDescQ (fun r => r.2.1) ([] : List (String × ℚ × ℚ × ℕ × ℕ))).Perm [] ∧
      (((sortByDescQ (fun r => r.2.1) ([] : List (String × ℚ × ℚ × ℕ × ℕ))).map
          fun r => r.2.1).Sorted fun a b => b ≤ a) ∧
      (get_user_media_stats [] 1).1 =
        (sortByDescQ (fun r => r.2.1) ([] : List (String × ℚ × ℚ × ℕ × ℕ))).take 1 ∧
      (get_user_media_stats [] 1).2 =
        ((sortByDescQ (fun r => r.2.1) ([] : List (String × ℚ × ℚ × ℕ × ℕ))).drop
          ((sortByDescQ (fun r => r.2.1) ([] : List (String × ℚ × ℚ × ℕ × ℕ))).length -
            1)).reverse ∧
      (((get_user_media_stats [] 1).2.map fun r => r.2.1).Sorted fun a b => a ≤ b))) :=
  ⟨by decide, top_bottom_slices_amended [] [] [] 1 (by decide)⟩

/-- The grouped-stats entry of the single-row store used to instantiate
the grouped-statistics theorem. -/
noncomputable def groupWitnessEntry : GroupStat :=
  groupEntry (normalize "a.x")
    (groupVals ([("a.x", 1000, 2)] : List (String × ℚ × ℕ)) (normalize "a.x"))

/-- C6: every entry of `get_name_group_elo_stats` describes the group of
rows sharing its normalised name (lowercased stem with underscores and
digits removed): its count is the group size, its total the sum of the
group's global counts, its avg the arithmetic mean, its mn and mx the
least and greatest group rating, and its std the square root of the
population variance (dividing by the group size); the entry names are a
permutation of the distinct normalised names, and the output is sorted by
mean rating descending. -/
theorem grouped_stats_correct (rows : List (String × ℚ × ℕ)) (e : GroupStat)
    (he : e ∈ get_name_group_elo_stats rows) :
    (e.count = (groupVals rows e.name).length ∧
     e.total = ((groupVals rows e.name).map fun v => v.2).sum ∧
     e.avg = ((groupVals rows e.name).map fun v => v.1).sum / (e.count : ℚ) ∧
     e.mn ∈ (groupVals rows e.name).map (fun v => v.1) ∧
     (∀ q ∈ (groupVals rows e.name).map fun v => v.1, e.mn ≤ q) ∧
     e.mx ∈ (groupVals rows e.name).map (fun v => v.1) ∧
     (∀ q ∈ (groupVals rows e.name).map fun v => v.1, q ≤ e.mx) ∧
     e.std = Real.sqrt
       ((((groupVals rows e.name).map fun v => v.1).map
          fun q => (q - e.avg) ^ 2).sum / (e.count : ℚ) : ℚ)) ∧
    (e.name ∈ rows.map fun r => normalize r.1) ∧
    ((get_name_group_elo_stats rows).map fun s => s.name).Perm
      (firstDedup (rows.map fun r => normalize r.1)) ∧
    (((get_name_group_elo_stats rows).map fun s => s.avg).Sorted fun a b => b ≤ a) := by
  have hperm : (get_name_group_elo_stats rows).Perm
      ((firstDedup (rows.map fun r => normalize r.1)).map
        fun k => groupEntry k (groupVals rows k)) :=
    sortByDescQ_perm _ _
  have hmem : e ∈ (firstDedup (rows.map fun r => normalize r.1)).map
      (fun k => groupEntry k (groupVals rows k)) := hperm.mem_iff.mp he
  obtain ⟨k, hk, hke⟩ := List.mem_map.mp hmem
  subst hke
  have hkrows : k ∈ rows.map fun r => normalize r.1 := mem_firstDedup.mp hk
  obtain ⟨r0, hr0, hr0k⟩ := List.mem_map.mp hkrows
  have hfilter : r0 ∈ rows.filter (fun r => decide (normalize r.1 = k)) :=
    List.mem_filter.mpr ⟨hr0, by simp [hr0k]⟩
  have hvals_ne : groupVals rows k ≠ [] := by
    unfold groupVals
    intro hcon
    rw [List.map_eq_nil_iff] at hcon
    rw [hcon] at hfilter
    simp at hfilter
  have hrat_ne : ((groupVals rows k).map fun v => v.1) ≠ [] := by
    intro hcon
    exact hvals_ne (List.map_eq_nil_iff.mp hcon)
  refine ⟨⟨rfl, rfl, rfl, ?_, ?_, ?_, ?_, rfl⟩, hkrows, ?_, ?_⟩
  · exact listMin_mem hrat_ne
  · intro q hq
    exact listMin_le q hq
  · exact listMax_mem hrat_ne
  · intro q hq
    exact le_listMax q hq
  · have h1 := hperm.map fun s : GroupStat => s.name
    have h2 : (((firstDedup (rows.map fun r => normalize r.1)).map
        fun k => groupEntry k (groupVals rows k)).map fun s : GroupStat => s.name)
        = firstDedup (rows.map fun r => normalize r.1) := by
      rw [List.map_map]
      have hc : ((fun s : GroupStat => s.name) ∘
          fun k => groupEntry k (groupVals rows k)) = fun k => k := rfl
      rw [hc]
      exact List.map_id _
    rw [h2] at h1
    exact h1
  · exact sortByDescQ_map_sorted (fun s => s.avg)
      ((firstDedup (rows.map fun r => normalize r.1)).map
        fun k => groupEntry k (groupVals rows k))

theorem grouped_stats_correct_witness :
    (groupWitnessEntry ∈
      get_name_group_elo_stats ([("a.x", 1000, 2)] : List (String × ℚ × ℕ))) ∧
    ((groupWitnessEntry.count =
        (groupVals ([("a.x", 1000, 2)] : List (String × ℚ × ℕ))
          groupWitnessEntry.name).length ∧
      groupWitnessEntry.total =
        ((groupVals ([("a.x", 1000, 2)] : List (String × ℚ × ℕ))
          groupWitnessEntry.name).map fun v => v.2).sum ∧
      groupWitnessEntry.avg =
        ((groupVals ([("a.x", 1000, 2)] : List (String × ℚ × ℕ))
          groupWitnessEntry.name).map fun v => v.1).sum / (groupWitnessEntry.count : ℚ) ∧
      groupWitnessEntry.mn ∈
        (groupVals ([("a.x", 1000, 2)] : List (String × ℚ × ℕ))
          groupWitnessEntry.name).map (fun v => v.1) ∧
      (∀ q ∈ (groupVals ([("a.x", 1000, 2)] : List (String × ℚ × ℕ))
          groupWitnessEntry.name).map fun v => v.1, groupWitnessEntry.mn ≤ q) ∧
      groupWitnessEntry.mx ∈
        (groupVals ([("a.x", 1000, 2)] : List (String × ℚ × ℕ))
          groupWitnessEntry.name).map (fun v => v.1) ∧
      (∀ q ∈ (groupVals ([("a.x", 1000, 2)] : List (String × ℚ × ℕ))
          groupWitnessEntry.name).map fun v => v.1, q ≤ groupWitnessEntry.mx) ∧
      groupWitnessEntry.std = Real.sqrt
        ((((groupVals ([("a.x", 1000, 2)] : List (String × ℚ × ℕ))
            groupWitnessEntry.name).map fun v => v.1).map
           fun q => (q - groupWitnessEntry.avg) ^ 2).sum /
          (groupWitnessEntry.count : ℚ) : ℚ)) ∧
     (groupWitnessEntry.name ∈
        ([("a.x", 1000, 2)] : List (String × ℚ × ℕ)).map fun r => normalize r.1) ∧
     ((get_name_group_elo_stats ([("a.x", 1000, 2)] : List (String × ℚ × ℕ))).map
        fun s => s.name).Perm
       (firstDedup (([("a.x", 1000, 2)] : List (String × ℚ × ℕ)).map
         fun r => normalize r.1)) ∧
     (((get_name_group_elo_stats ([("a.x", 1000, 2)] : List (String × ℚ × ℕ))).map
        fun s => s.avg).Sorted fun a b => b ≤ a)) :=
  ⟨List.mem_singleton.mpr rfl,
    grouped_stats_correct ([("a.x", 1000, 2)] : List (String × ℚ × ℕ))
      groupWitnessEntry (List.mem_singleton.mpr rfl)⟩

end Ranker
